import Mathlib

/-!
# Verification of `steam_wishlist.py`

A shallow embedding of the Steam wishlist export script. JSON-representable
values, wishlist entries and the wishlist itself are modelled as inductive
data; the script's helpers (`integer`, `clean_str`), the paginated fetch
loop, the price-enrichment guard, the filter loop, the JSON field projector,
the CSV sort key, and the snapshot save/load path (`json.dump`/`json.load`)
become total Lean functions. Fallible Python operations (`dict[...]`,
`int(...)`, `.lower()`, `list(...)[0]`) return `Except PyErr`.
-/

namespace SteamWishlist

/-- Python exception kinds raised by the operations the script uses. -/
inductive PyErr where
  | keyError
  | typeError
  | valueError
  | attributeError
  | indexError
  | httpError
  deriving DecidableEq, Repr

instance {ε α : Type} [DecidableEq ε] [DecidableEq α] :
    DecidableEq (Except ε α) := fun a b =>
  match a, b with
  | .ok x, .ok y =>
      if h : x = y then .isTrue (by rw [h]) else .isFalse (by simp [h])
  | .error x, .error y =>
      if h : x = y then .isTrue (by rw [h]) else .isFalse (by simp [h])
  | .ok _, .error _ => .isFalse (by simp)
  | .error _, .ok _ => .isFalse (by simp)

/-- JSON-representable Python values as stored in a wishlist entry:
strings, ints, booleans, `None`, lists and objects (dicts). Floats do not
occur in the wishlist data and are not modelled. -/
inductive Value where
  | vStr (s : String)
  | vInt (n : Int)
  | vBool (b : Bool)
  | vNull
  | vList (l : List Value)
  | vObj (m : List (String × Value))

/-- Structural induction for `Value`, with the nested lists exposed as
membership hypotheses. -/
theorem Value.ind (P : Value → Prop)
    (hstr : ∀ s, P (.vStr s)) (hint : ∀ n, P (.vInt n))
    (hbool : ∀ b, P (.vBool b)) (hnull : P .vNull)
    (hlist : ∀ l, (∀ v ∈ l, P v) → P (.vList l))
    (hobj : ∀ m, (∀ p ∈ m, P p.2) → P (.vObj m)) : ∀ v, P v := by
  have key : ∀ n v, sizeOf v ≤ n → P v := by
    intro n
    induction n with
    | zero =>
      intro v hv
      exact absurd hv (by cases v <;> simp)
    | succ n ih =>
      intro v hv
      cases v with
      | vStr s => exact hstr s
      | vInt k => exact hint k
      | vBool b => exact hbool b
      | vNull => exact hnull
      | vList l =>
        refine hlist l (fun v hvmem => ih v ?_)
        have h1 : sizeOf v < sizeOf l := List.sizeOf_lt_of_mem hvmem
        have h2 : sizeOf (Value.vList l) = 1 + sizeOf l := by simp
        omega
      | vObj m =>
        refine hobj m (fun p hpmem => ih p.2 ?_)
        have h1 : sizeOf p < sizeOf m := List.sizeOf_lt_of_mem hpmem
        have h2 : sizeOf (Value.vObj m) = 1 + sizeOf m := by simp
        have h3 : sizeOf p = 1 + sizeOf p.1 + sizeOf p.2 := by
          cases p; simp
        omega
  exact fun v => key (sizeOf v) v le_rfl

mutual

/-- Boolean equality on values. -/
def valueEq : Value → Value → Bool
  | .vStr a, .vStr b => a == b
  | .vInt a, .vInt b => a == b
  | .vBool a, .vBool b => a == b
  | .vNull, .vNull => true
  | .vList a, .vList b => valueListEq a b
  | .vObj a, .vObj b => valueObjEq a b
  | _, _ => false

/-- Boolean equality on value lists. -/
def valueListEq : List Value → List Value → Bool
  | [], [] => true
  | a :: as, b :: bs => valueEq a b && valueListEq as bs
  | _, _ => false

/-- Boolean equality on key/value pair lists. -/
def valueObjEq : List (String × Value) → List (String × Value) → Bool
  | [], [] => true
  | (ka, va) :: as, (kb, vb) :: bs =>
      ka == kb && valueEq va vb && valueObjEq as bs
  | _, _ => false

end

theorem valueEq_iff : ∀ a b, valueEq a b = true ↔ a = b := by
  intro a
  induction a using Value.ind with
  | hstr s => intro b; cases b <;> simp [valueEq]
  | hint n => intro b; cases b <;> simp [valueEq]
  | hbool x => intro b; cases b <;> simp [valueEq]
  | hnull => intro b; cases b <;> simp [valueEq]
  | hlist l ih =>
    intro b
    cases b <;> simp only [valueEq] <;> try simp
    case vList l' =>
      suffices h : valueListEq l l' = true ↔ l = l' by
        simpa [valueEq] using h
      induction l generalizing l' with
      | nil => cases l' <;> simp [valueListEq]
      | cons x xs ihx =>
        cases l' with
        | nil => simp [valueListEq]
        | cons y ys =>
          have hx := ih x (by simp)
          have hxs := ihx (fun v hv => ih v (by simp [hv]))
          simp [valueListEq, hx, hxs]
  | hobj m ih =>
    intro b
    cases b <;> simp only [valueEq] <;> try simp
    case vObj m' =>
      suffices h : valueObjEq m m' = true ↔ m = m' by
        simpa [valueEq] using h
      induction m generalizing m' with
      | nil => cases m' <;> simp [valueObjEq]
      | cons x xs ihx =>
        cases m' with
        | nil => cases x; simp [valueObjEq]
        | cons y ys =>
          cases x with
          | mk kx vx =>
            cases y with
            | mk ky vy =>
              have hx := ih (kx, vx) (by simp)
              have hxs := ihx (fun p hp => ih p (by simp [hp]))
              simp [valueObjEq, hx, hxs]

instance : DecidableEq Value := fun a b =>
  decidable_of_iff (valueEq a b = true) (valueEq_iff a b)

/-- A wishlist entry: a Python dict from field name to value, modelled as an
association list in insertion order (keys unique in any dict the script
builds). -/
abbrev Entry := List (String × Value)

/-- The wishlist: a Python dict from gameid to entry. -/
abbrev Wishlist := List (String × Entry)

/-- Python `d[k] = v` on a dict modelled as an association list: replace the
first binding of `k` in place (a dict keeps the original insertion
position), else append. -/
def upsert {α : Type} : List (String × α) → String → α → List (String × α)
  | [], k, v => [(k, v)]
  | (k', v') :: rest, k, v =>
      if k' = k then (k, v) :: rest else (k', v') :: upsert rest k v

/-- Python `d.get(k)` / `k in d`: first binding of `k`. -/
def getField : List (String × Value) → String → Option Value
  | [], _ => none
  | (k', v) :: rest, k => if k' = k then some v else getField rest k

/-- Python truthiness of a modelled value. -/
def truthy : Value → Bool
  | .vStr s => !s.isEmpty
  | .vInt n => n != 0
  | .vBool b => b
  | .vNull => false
  | .vList l => !l.isEmpty
  | .vObj m => !m.isEmpty

/-- Truthiness of `fields.get(k, None)`. -/
def truthyOpt : Option Value → Bool
  | none => false
  | some v => truthy v

/-- Truthiness of an optional-string command line flag (`None` and `""` are
falsy). -/
def strOptTruthy : Option String → Bool
  | none => false
  | some s => !s.isEmpty

/-- Decimal value of a digit sequence, most significant first. -/
def digitsVal (cs : List Char) : Nat :=
  cs.foldl (fun a c => a * 10 + (c.toNat - 48)) 0

/-- Non-empty all-digit character sequence. -/
def isDigits (cs : List Char) : Bool :=
  !cs.isEmpty && cs.all Char.isDigit

/-- Python `int(s)` on a string: an optionally signed decimal integer
literal. (CPython also strips surrounding whitespace and allows single
underscores between digits; those inputs do not occur in this development
and are rejected here.) -/
def pyInt (s : String) : Option Int :=
  match s.data with
  | '-' :: rest => if isDigits rest then some (-(digitsVal rest : Int)) else none
  | '+' :: rest => if isDigits rest then some ((digitsVal rest : Int)) else none
  | cs => if isDigits cs then some ((digitsVal cs : Int)) else none

/-- Python `int(v)` on a wishlist field value: identity on ints, 1/0 on
booleans, string parse on strings; `TypeError` on `None`, lists and dicts. -/
def pyIntValue : Value → Except PyErr Int
  | .vInt n => .ok n
  | .vBool b => .ok (if b then 1 else 0)
  | .vStr s =>
      match pyInt s with
      | some n => .ok n
      | none => .error .valueError
  | _ => .error .typeError

/-- Python `s.lower()` for ASCII strings. -/
def strLower (s : String) : String :=
  String.mk (s.data.map Char.toLower)

/-- Python `v.lower()` on a field value: only strings have `.lower`. -/
def pyLower : Value → Except PyErr String
  | .vStr s => .ok (strLower s)
  | _ => .error .attributeError

/-- `clean_str` on the character list: keep alphabetic characters, lower-case
them (`"".join([c.lower() for c in s if c.isalpha()])`). -/
def cleanChars (cs : List Char) : List Char :=
  (cs.filter Char.isAlpha).map Char.toLower

/-- The script's `clean_str` helper. -/
def clean_str (s : String) : String :=
  String.mk (cleanChars s.data)

/-- The script's `integer` helper: `None` resolves to `0`; otherwise
`int(value)` is attempted and the result returned when no truthy `max` is
given or the value is `≤ max`; any other case prints the range message and
exits with code 1 (modelled as `Except.error` carrying the message). -/
def integer (value : Option String) (name : String) (max : Option Int) :
    Except String Int :=
  match value with
  | none => .ok 0
  | some s =>
      let err :=
        match max with
        | some m =>
            if m != 0 then
              name ++ " must be an integer between 0 and " ++ toString m ++
                ", inclusive.\n"
            else name ++ " must be an integer\n"
        | none => name ++ " must be an integer\n"
      match pyInt s with
      | some v =>
          if max.getD 0 == 0 || v ≤ max.getD 0 then .ok v else .error err
      | none => .error err

/-- The resolved command line configuration (`args`). Flags taking a value
are `Option String` (`none` when absent); repeatable flags are lists (`[]`
when absent, matching `None`'s falsiness); store-true flags are `Bool`. -/
structure Config where
  userid : Option String := none
  cookie : Option String := none
  quiet : Bool := false
  json : Bool := false
  csv : Bool := false
  fields : Option String := none
  separator : String := "\t"
  quote : String := "never"
  sort : Option String := none
  num : Bool := false
  reverse : Bool := false
  save : Option String := none
  load : Option String := none
  platform : List String := []
  free : Bool := false
  no_free : Bool := false
  demo : Bool := false
  achievements : Bool := false
  cards : Bool := false
  released : Bool := false
  no_released : Bool := false
  early : Bool := false
  no_early : Bool := false
  type : List String := []
  tag : List String := []
  deck : Option String := none
  cc : Option String := none
  refresh : Bool := false
  discount : Option String := none
  price : Option String := none

/-!
## Wishlist fetch loop

One remote page is either a JSON dict (possibly empty), some non-dict JSON
value, or an HTTP error from `urlopen`. The `while True` loop increments the
page counter, merges each non-empty dict into the accumulator, breaks on an
empty dict or non-dict, and re-raises an `HTTPError` unconditionally. The
loop is given fuel; every theorem supplies enough fuel that the fuel-out
branch (which returns the accumulator) is never reached.
-/

/-- The outcome of fetching and JSON-decoding one wishlist page. -/
inductive PageResp where
  | dict (kvs : List (String × Entry))
  | nonDict
  | httpErr

/-- Merge one page into the wishlist: `for k, v in json_obj.items():
wishlist[k] = v`. -/
def mergePage (acc : Wishlist) (kvs : List (String × Entry)) : Wishlist :=
  kvs.foldl (fun w kv => upsert w kv.1 kv.2) acc

/-- The paginated fetch loop, starting at page `page` with accumulator
`acc`. -/
def fetchAux (pages : Nat → PageResp) : Nat → Nat → Wishlist →
    Except PyErr Wishlist
  | 0, _, acc => .ok acc
  | fuel + 1, page, acc =>
      match pages page with
      | .httpErr => .error .httpError
      | .nonDict => .ok acc
      | .dict kvs =>
          if kvs.isEmpty then .ok acc
          else fetchAux pages fuel (page + 1) (mergePage acc kvs)

/-- Fetch mode: run the loop from page 0 with an empty wishlist. -/
def fetchWishlist (pages : Nat → PageResp) (fuel : Nat) :
    Except PyErr Wishlist :=
  fetchAux pages fuel 0 []

/-!
## Price-enrichment guard

`if args.cc and (not args.load or "_price" not in list(wishlist.values())[0]
or args.refresh)`, with Python's left-to-right short-circuit evaluation:
`list(wishlist.values())[0]` is only reached when a load file was given, and
raises `IndexError` on an empty wishlist.
-/

/-- Whether the price fetch runs, or the `IndexError` raised while deciding. -/
def priceGuard (cfg : Config) (w : Wishlist) : Except PyErr Bool :=
  if strOptTruthy cfg.cc then
    if !strOptTruthy cfg.load then .ok true
    else
      match w with
      | [] => .error .indexError
      | (_, e) :: _ =>
          if getField e "_price" = none then .ok true else .ok cfg.refresh
  else .ok false

/-!
## Filter engine

Each step transforms the running `add_game` boolean exactly as the
corresponding block of the per-entry filter loop does, short-circuiting
lookups and conversions exactly where Python's `and` does.
-/

/-- `if args.platform: add_game = False; for platform in [...]: if
fields.get(platform, None) and platform in args.platform: add_game = True`. -/
def platformStep (cfg : Config) (e : Entry) (b : Bool) : Bool :=
  if cfg.platform.isEmpty then b
  else
    ["linux", "win", "mac"].any
      (fun p => truthyOpt (getField e p) && cfg.platform.contains p)

/-- `if args.type: add_game = add_game and fields.get("type", "").lower() in
args.type` (the lookup is skipped when `add_game` is already false). -/
def typeStep (cfg : Config) (e : Entry) (b : Bool) : Except PyErr Bool :=
  if cfg.type.isEmpty then .ok b
  else if b then do
    let t ← pyLower ((getField e "type").getD (.vStr ""))
    pure (cfg.type.contains t)
  else .ok false

/-- The four polarity filters on `is_free_game`, `prerelease` and
`early_access`. -/
def boolSteps (cfg : Config) (e : Entry) (b : Bool) : Bool :=
  let isFree := truthy ((getField e "is_free_game").getD (.vBool false))
  let isPre := truthy ((getField e "prerelease").getD (.vBool false))
  let isEarly := truthy ((getField e "early_access").getD (.vBool false))
  let b := if cfg.free && !isFree then false else b
  let b := if cfg.no_free && isFree then false else b
  let b := if cfg.released && isPre then false else b
  let b := if cfg.no_released && !isPre then false else b
  let b := if cfg.early && !isEarly then false else b
  if cfg.no_early && isEarly then false else b

/-- Everything before the tag filter, in source order: platform, type, and
the free/released/early polarity filters. -/
def preTag (cfg : Config) (e : Entry) : Except PyErr Bool := do
  let b := platformStep cfg e true
  let b ← typeStep cfg e b
  pure (boolSteps cfg e b)

/-- Each element of a JSON list must be a string to be fed to `clean_str`;
a non-string element raises `TypeError` inside `clean_str`'s comprehension. -/
def getTagsList : List Value → Except PyErr (List String)
  | [] => .ok []
  | .vStr s :: rest => do
      let tl ← getTagsList rest
      pure (s :: tl)
  | _ :: _ => .error .typeError

/-- Python iteration over `fields["tags"]`, applying `clean_str` to each
element: a list of strings maps elementwise; iterating a string yields its
characters as one-character strings; anything else raises `TypeError`. -/
def getTags : Value → Except PyErr (List String)
  | .vList l => getTagsList l
  | .vStr s => .ok (s.data.map (fun c => String.mk [c]))
  | _ => .error .typeError

/-- The stored tags, each normalised, contain the normalisation of some
requested tag. -/
def tagAnyMatch (wanted : List String) (stored : List String) : Bool :=
  wanted.any (fun wt => (stored.map clean_str).contains (clean_str wt))

/-- `if add_game and args.tag: ... tags = [clean_str(tag) for tag in
fields["tags"]]; ...` — `fields["tags"]` raises `KeyError` when absent. -/
def tagStep (cfg : Config) (e : Entry) (b : Bool) : Except PyErr Bool :=
  if b && !cfg.tag.isEmpty then
    match getField e "tags" with
    | none => .error .keyError
    | some tv => do
        let stored ← getTags tv
        pure (tagAnyMatch cfg.tag stored)
  else .ok b

/-- `if add_game and args.discount: add_game =
int(fields.get("discount_percent", 0)) >= wanted_discount`. -/
def discountStep (cfg : Config) (wd : Int) (e : Entry) (b : Bool) :
    Except PyErr Bool :=
  if b && strOptTruthy cfg.discount then do
    let d ← pyIntValue ((getField e "discount_percent").getD (.vInt 0))
    pure (decide (wd ≤ d))
  else .ok b

/-- `if add_game and args.price: add_game = int(fields.get("final", 0)) <=
wanted_price`. -/
def priceStep (cfg : Config) (wp : Int) (e : Entry) (b : Bool) :
    Except PyErr Bool :=
  if b && strOptTruthy cfg.price then do
    let f ← pyIntValue ((getField e "final").getD (.vInt 0))
    pure (decide (f ≤ wp))
  else .ok b

/-- `if add_game and args.deck: add_game = int(fields.get("deck_compat", 0))
>= wanted_deck_rating`. -/
def deckStep (cfg : Config) (wdr : Int) (e : Entry) (b : Bool) :
    Except PyErr Bool :=
  if b && strOptTruthy cfg.deck then do
    let d ← pyIntValue ((getField e "deck_compat").getD (.vInt 0))
    pure (decide (wdr ≤ d))
  else .ok b

/-- `for filter_list in filter_lists: add_game = add_game and gameid in
filter_list`. -/
def listsStep (lists : List (List String)) (g : String) (b : Bool) : Bool :=
  b && lists.all (fun fl => fl.contains g)

/-- The complete per-entry decision of the filter loop. `wd`, `wp` and `wdr`
are `wanted_discount`, `wanted_price` and `wanted_deck_rating`. -/
def addGame (cfg : Config) (wd wp wdr : Int) (lists : List (List String))
    (g : String) (e : Entry) : Except PyErr Bool := do
  let b ← preTag cfg e
  let b ← tagStep cfg e b
  let b ← discountStep cfg wd e b
  let b ← priceStep cfg wp e b
  let b ← deckStep cfg wdr e b
  pure (listsStep lists g b)

/-- The filter loop: build `filtered` by appending each entry whose
`add_game` decision is true; any exception aborts the whole loop. -/
def filterWishlist (cfg : Config) (wd wp wdr : Int)
    (lists : List (List String)) : Wishlist → Except PyErr Wishlist
  | [] => .ok []
  | (g, e) :: rest => do
      let b ← addGame cfg wd wp wdr lists g e
      let tl ← filterWishlist cfg wd wp wdr lists rest
      pure (if b then (g, e) :: tl else tl)

/-!
## Field projection (JSON output)
-/

/-- `"https://store.steampowered.com/app/{}".format(gameid)`. -/
def storeLink (g : String) : String :=
  "https://store.steampowered.com/app/" ++ g

/-- Python `s.split(",")`: split at every comma, keeping empty pieces. -/
def splitCommaAux : List Char → List Char → List String
  | [], cur => [String.mk cur.reverse]
  | c :: cs, cur =>
      if c = ',' then String.mk cur.reverse :: splitCommaAux cs []
      else splitCommaAux cs (c :: cur)

/-- Python `s.split(",")`. -/
def splitComma (s : String) : List String :=
  splitCommaAux s.data []

/-- `None if not getattr(args, "fields", None) else args.fields.split(",")`. -/
def wantedFields (cfg : Config) : Option (List String) :=
  if strOptTruthy cfg.fields then some (splitComma (cfg.fields.getD ""))
  else none

/-- `if not wanted_fields or field_name in wanted_fields`. -/
def keepField (wanted : Option (List String)) (k : String) : Bool :=
  match wanted with
  | none => true
  | some ws => ws.contains k

/-- The retained fields of one entry, copied into a fresh dict in iteration
order. -/
def projBase (wanted : Option (List String)) (e : Entry) : Entry :=
  e.foldl
    (fun acc kv => if keepField wanted kv.1 then upsert acc kv.1 kv.2 else acc)
    []

/-- One entry of the JSON output: the retained fields, then the computed
`link` field assigned on top when `link` was explicitly requested. -/
def projectEntry (wanted : Option (List String)) (g : String) (e : Entry) :
    Entry :=
  match wanted with
  | some ws =>
      if ws.contains "link" then
        upsert (projBase wanted e) "link" (.vStr (storeLink g))
      else projBase wanted e
  | none => projBase wanted e

/-- The JSON output mapping: project every surviving entry, keyed by
gameid. -/
def jsonOutput (wanted : Option (List String)) (w : Wishlist) : Wishlist :=
  w.foldl (fun out ge => upsert out ge.1 (projectEntry wanted ge.1 ge.2)) []

/-!
## CSV sort key
-/

/-- A Python sort key as the CSV sorter produces it: `int(value)` or
`str(value)`. -/
inductive SKey where
  | int (n : Int)
  | str (s : String)
  deriving DecidableEq, Repr

mutual

/-- Python `str(v)` / `repr(v)` of a field value. (For strings nested in
lists, `repr` quoting is modelled without escape sequences; no claim
evaluates it there.) -/
def pyStr : Value → String
  | .vStr s => s
  | .vInt n => toString n
  | .vBool b => if b then "True" else "False"
  | .vNull => "None"
  | .vList l => "[" ++ pyStrList l ++ "]"
  | .vObj m => "\x7b" ++ pyStrMembers m ++ "\x7d"

/-- `repr` of list elements, comma-space separated. -/
def pyStrList : List Value → String
  | [] => ""
  | [v] => pyStrRepr v
  | v :: rest => pyStrRepr v ++ ", " ++ pyStrList rest

/-- `repr` of dict items, comma-space separated. -/
def pyStrMembers : List (String × Value) → String
  | [] => ""
  | [(k, v)] => "'" ++ k ++ "': " ++ pyStrRepr v
  | (k, v) :: rest => "'" ++ k ++ "': " ++ pyStrRepr v ++ ", " ++ pyStrMembers rest

/-- `repr(v)`: like `str(v)` except strings are quoted. -/
def pyStrRepr : Value → String
  | .vStr s => "'" ++ s ++ "'"
  | v => pyStr v

end

/-- The raw sort value the `sorter` key function selects, before any
conversion: `item[1].get("added")`, overridden by `--sort` (where `id` and
`gameid` name the key itself, and a missing field defaults to `0` in
numeric mode and `""` otherwise). `None` models Python's `None`. -/
def sortRaw (cfg : Config) (g : String) (e : Entry) : Value :=
  if strOptTruthy cfg.sort then
    let s := cfg.sort.getD ""
    if s = "id" ∨ s = "gameid" then .vStr g
    else (getField e s).getD (if cfg.num then .vInt 0 else .vStr "")
  else (getField e "added").getD .vNull

/-- The `sorter` key function: `int(value)` when `--num` is set or
`str(value)` is all digits, else `str(value)`. -/
def sorter (cfg : Config) (item : String × Entry) : Except PyErr SKey :=
  let value := sortRaw cfg item.1 item.2
  if cfg.num || isDigits (pyStr value).data then
    (pyIntValue value).map SKey.int
  else .ok (.str (pyStr value))

/-- The key computations `sorted` performs, in list order; the first raised
exception aborts the sort (and the run). -/
def sortKeys (cfg : Config) : Wishlist → Except PyErr (List SKey)
  | [] => .ok []
  | item :: rest => do
      let k ← sorter cfg item
      let tl ← sortKeys cfg rest
      pure (k :: tl)

/-- `int(v)` succeeds: `v` is an int, a bool, or a string holding an
optionally signed decimal literal. -/
def intConvertible (v : Value) : Bool :=
  match pyIntValue v with
  | .ok _ => true
  | .error _ => false

/-- The claim's predicate on sort values: a (Python) integer, or a string
of digits only. -/
def isIntOrDigitStr : Value → Bool
  | .vInt _ => true
  | .vStr s => isDigits s.data
  | _ => false

/-- A concrete page oracle: page 0 holds one entry, page 1 answers with an
HTTP error. -/
def pagesAfterFirstFails : Nat → PageResp := fun n =>
  if n = 0 then .dict [("1", [("name", .vStr "A")])] else .httpErr

/-!
## Properties of the filter engine
-/

theorem getTagsList_map (stored : List String) :
    getTagsList (stored.map .vStr) = .ok stored := by
  induction stored with
  | nil => rfl
  | cons s rest ih =>
    simp [getTagsList, ih, Bind.bind, Except.bind, pure, Except.pure]

/-- The filter loop keeps a (order-preserving) selection of its input. -/
theorem filterWishlist_sublist (cfg : Config) (wd wp wdr : Int)
    (lists : List (List String)) :
    ∀ (w w' : Wishlist),
      filterWishlist cfg wd wp wdr lists w = .ok w' → w'.Sublist w := by
  intro w
  induction w with
  | nil =>
    intro w' h
    simp only [filterWishlist] at h
    cases h
    exact List.Sublist.refl []
  | cons kv rest ih =>
    intro w' h
    obtain ⟨g, e⟩ := kv
    simp only [filterWishlist] at h
    cases h1 : addGame cfg wd wp wdr lists g e with
    | error err => rw [h1] at h; simp [Bind.bind, Except.bind] at h
    | ok b =>
      rw [h1] at h
      cases h2 : filterWishlist cfg wd wp wdr lists rest with
      | error err => rw [h2] at h; simp [Bind.bind, Except.bind] at h
      | ok tl =>
        rw [h2] at h
        simp only [Bind.bind, Except.bind, pure, Except.pure] at h
        cases h
        cases b with
        | false => exact (ih tl h2).cons (g, e)
        | true => exact (ih tl h2).cons₂ (g, e)

/-- If any entry of the wishlist raises inside the filter loop, the whole
loop raises. -/
theorem filterWishlist_error_of_mem (cfg : Config) (wd wp wdr : Int)
    (lists : List (List String)) :
    ∀ (w : Wishlist) (g : String) (e : Entry) (err0 : PyErr),
      (g, e) ∈ w → addGame cfg wd wp wdr lists g e = .error err0 →
      ∃ err, filterWishlist cfg wd wp wdr lists w = .error err := by
  intro w
  induction w with
  | nil => intro g e err0 hmem; cases hmem
  | cons kv rest ih =>
    intro g e err0 hmem hadd
    obtain ⟨g', e'⟩ := kv
    rcases List.mem_cons.mp hmem with heq | hrest
    · cases heq
      refine ⟨err0, ?_⟩
      simp [filterWishlist, hadd, Bind.bind, Except.bind]
    · cases h1 : addGame cfg wd wp wdr lists g' e' with
      | error err' =>
        refine ⟨err', ?_⟩
        simp [filterWishlist, h1, Bind.bind, Except.bind]
      | ok b =>
        obtain ⟨err, herr⟩ := ih g e err0 hrest hadd
        refine ⟨err, ?_⟩
        simp [filterWishlist, h1, herr, Bind.bind, Except.bind]

/-- C6: filtering is idempotent: for every filter configuration (flags,
resolved thresholds, curated lists) under which the filter loop succeeds,
running the loop again on its own output with the same configuration
succeeds and returns that output unchanged. -/
theorem c6_filter_idempotent (cfg : Config) (wd wp wdr : Int)
    (lists : List (List String)) :
    ∀ (w w' : Wishlist),
      filterWishlist cfg wd wp wdr lists w = .ok w' →
      filterWishlist cfg wd wp wdr lists w' = .ok w' := by
  intro w
  induction w with
  | nil =>
    intro w' h
    simp only [filterWishlist] at h
    cases h
    rfl
  | cons kv rest ih =>
    intro w' h
    obtain ⟨g, e⟩ := kv
    simp only [filterWishlist] at h
    cases h1 : addGame cfg wd wp wdr lists g e with
    | error err => rw [h1] at h; simp [Bind.bind, Except.bind] at h
    | ok b =>
      rw [h1] at h
      cases h2 : filterWishlist cfg wd wp wdr lists rest with
      | error err => rw [h2] at h; simp [Bind.bind, Except.bind] at h
      | ok tl =>
        rw [h2] at h
        simp only [Bind.bind, Except.bind, pure, Except.pure] at h
        cases h
        cases b with
        | false => exact ih tl h2
        | true =>
          simp [filterWishlist, h1, ih tl h2, Bind.bind, Except.bind, pure,
            Except.pure]

theorem c6_filter_idempotent_witness :
    filterWishlist { free := true } 0 0 0 []
        [("10", [("is_free_game", .vBool true)]), ("20", [])] =
      .ok [("10", [("is_free_game", .vBool true)])] ∧
    filterWishlist { free := true } 0 0 0 []
        [("10", [("is_free_game", .vBool true)])] =
      .ok [("10", [("is_free_game", .vBool true)])] :=
  ⟨by decide,
   c6_filter_idempotent { free := true } 0 0 0 []
     [("10", [("is_free_game", .vBool true)]), ("20", [])]
     [("10", [("is_free_game", .vBool true)])] (by decide)⟩

/-- C8: whenever the filter loop succeeds, its output is a sub-mapping of
its input: every output binding is literally one of the input bindings (the
entry itself unmodified), and the output is no longer than the input. -/
theorem c8_filter_submapping (cfg : Config) (wd wp wdr : Int)
    (lists : List (List String)) (w w' : Wishlist)
    (h : filterWishlist cfg wd wp wdr lists w = .ok w') :
    (∀ g e, (g, e) ∈ w' → (g, e) ∈ w) ∧ w'.length ≤ w.length := by
  have hs := filterWishlist_sublist cfg wd wp wdr lists w w' h
  exact ⟨fun g e hge => hs.subset hge, hs.length_le⟩

theorem c8_filter_submapping_witness :
    filterWishlist { no_free := true } 0 0 0 []
        [("10", [("is_free_game", .vBool true)]), ("20", [("name", .vStr "B")])] =
      .ok [("20", [("name", .vStr "B")])] ∧
    ((∀ g e, (g, e) ∈ ([("20", [("name", .vStr "B")])] : Wishlist) →
        (g, e) ∈ ([("10", [("is_free_game", .vBool true)]),
          ("20", [("name", .vStr "B")])] : Wishlist)) ∧
      ([("20", [("name", .vStr "B")])] : Wishlist).length ≤
        ([("10", [("is_free_game", .vBool true)]),
          ("20", [("name", .vStr "B")])] : Wishlist).length) :=
  ⟨by decide,
   c8_filter_submapping { no_free := true } 0 0 0 []
     [("10", [("is_free_game", .vBool true)]), ("20", [("name", .vStr "B")])]
     [("20", [("name", .vStr "B")])] (by decide)⟩

/-- C3: tag matching is case- and punctuation-insensitive. The tag filter
passes exactly when some stored tag and some requested tag agree after
`clean_str` normalisation (lower-casing and dropping non-alphabetic
characters); in particular requesting `"Role Playing"` matches a stored
`"role-playing"`. -/
theorem c3_tag_matching :
    (∀ (wanted stored : List String),
        tagAnyMatch wanted stored = true ↔
          ∃ s ∈ stored, ∃ t ∈ wanted, clean_str s = clean_str t) ∧
    (∀ (cfg : Config) (e : Entry) (stored : List String),
        cfg.tag ≠ [] →
        getField e "tags" = some (.vList (stored.map .vStr)) →
        tagStep cfg e true = .ok (tagAnyMatch cfg.tag stored)) ∧
    tagAnyMatch ["Role Playing"] ["role-playing"] = true := by
  refine ⟨?_, ?_, by decide⟩
  · intro wanted stored
    constructor
    · intro h
      obtain ⟨t, ht, hc⟩ := List.any_eq_true.mp h
      obtain ⟨s, hs, hst⟩ := List.mem_map.mp (List.elem_iff.mp hc)
      exact ⟨s, hs, t, ht, hst⟩
    · rintro ⟨s, hs, t, ht, hst⟩
      exact List.any_eq_true.mpr
        ⟨t, ht, List.elem_iff.mpr (List.mem_map.mpr ⟨s, hs, hst⟩)⟩
  · intro cfg e stored htag hfield
    have hne : cfg.tag.isEmpty = false := by
      cases h : cfg.tag with
      | nil => exact absurd h htag
      | cons a l => rfl
    simp [tagStep, hne, hfield, getTags, getTagsList_map, Bind.bind,
      Except.bind, pure, Except.pure]

theorem c3_tag_matching_witness :
    tagStep { tag := ["Role Playing"] }
        [("tags", .vList [.vStr "role-playing"])] true = .ok true := by
  have h := c3_tag_matching.2.1 { tag := ["Role Playing"] }
    [("tags", .vList [.vStr "role-playing"])] ["role-playing"]
    (by decide) (by decide)
  rw [h]
  decide

/-- C4: if tag filtering is requested and an entry that reaches the tag
test (every preceding filter left `add_game` true) has no `tags` field, the
per-entry decision raises `KeyError` and the whole filter stage fails with
a fatal error rather than treating the entry as having no tags. -/
theorem c4_missing_tags_fatal (cfg : Config) (wd wp wdr : Int)
    (lists : List (List String)) (w : Wishlist) (g : String) (e : Entry)
    (htag : cfg.tag ≠ []) (hmem : (g, e) ∈ w)
    (hpre : preTag cfg e = .ok true) (hfield : getField e "tags" = none) :
    addGame cfg wd wp wdr lists g e = .error .keyError ∧
      ∃ err, filterWishlist cfg wd wp wdr lists w = .error err := by
  have hne : cfg.tag.isEmpty = false := by
    cases h : cfg.tag with
    | nil => exact absurd h htag
    | cons a l => rfl
  have hadd : addGame cfg wd wp wdr lists g e = .error .keyError := by
    simp [addGame, hpre, tagStep, hne, hfield, Bind.bind, Except.bind]
  exact ⟨hadd,
    filterWishlist_error_of_mem cfg wd wp wdr lists w g e .keyError hmem hadd⟩

theorem c4_missing_tags_fatal_witness :
    (({ tag := ["rpg"] } : Config).tag ≠ [] ∧
      (("30", [("name", .vStr "Foo")]) : String × Entry) ∈
        ([("30", [("name", .vStr "Foo")])] : Wishlist) ∧
      preTag { tag := ["rpg"] } [("name", .vStr "Foo")] = .ok true ∧
      getField [("name", .vStr "Foo")] "tags" = none) ∧
    (addGame { tag := ["rpg"] } 0 0 0 [] "30" [("name", .vStr "Foo")] =
        .error .keyError ∧
      ∃ err, filterWishlist { tag := ["rpg"] } 0 0 0 []
        [("30", [("name", .vStr "Foo")])] = .error err) :=
  ⟨⟨by decide, by decide, by decide, by decide⟩,
   c4_missing_tags_fatal { tag := ["rpg"] } 0 0 0 []
     [("30", [("name", .vStr "Foo")])] "30" [("name", .vStr "Foo")]
     (by decide) (by decide) (by decide) (by decide)⟩

/-!
## Properties of the fetch loop
-/

/-- If every page before `k` (counting from `page`) is a non-empty dict and
page `page + k` answers with an HTTP error, the loop re-raises the error,
whatever has been accumulated. -/
theorem fetchAux_httpError (pages : Nat → PageResp) :
    ∀ (k page : Nat) (acc : Wishlist) (fuel : Nat),
      (∀ q, q < k → ∃ kvs, pages (page + q) = .dict kvs ∧ kvs ≠ []) →
      pages (page + k) = .httpErr → k < fuel →
      fetchAux pages fuel page acc = .error .httpError := by
  intro k
  induction k with
  | zero =>
    intro page acc fuel _ hp hf
    match fuel, hf with
    | fuel + 1, _ =>
      simp only [fetchAux]
      rw [Nat.add_zero] at hp
      rw [hp]
  | succ k ih =>
    intro page acc fuel hb hp hf
    obtain ⟨kvs, hq, hne⟩ := hb 0 (Nat.succ_pos k)
    rw [Nat.add_zero] at hq
    match fuel, hf with
    | fuel + 1, hf =>
      have hkvs : kvs.isEmpty = false := by
        cases kvs with
        | nil => exact absurd rfl hne
        | cons a l => rfl
      simp only [fetchAux]
      rw [hq]
      simp only [hkvs, Bool.false_eq_true, if_false]
      refine ih (page + 1) (mergePage acc kvs) fuel ?_ ?_ (by omega)
      · intro q hqlt
        have h := hb (q + 1) (by omega)
        rwa [show page + (q + 1) = page + 1 + q by omega] at h
      · rwa [show page + 1 + k = page + (k + 1) by omega]

/-- C1 (amended): in fetch mode an HTTP request failure on ANY page, the
first included, propagates as a fatal error: if pages `0..p-1` return
non-empty dicts and page `p` returns an HTTP error, the whole fetch raises
and no wishlist is produced. (The claim's graceful stop for `p ≥ 1` does
not hold; only an empty or non-dict response stops pagination normally.) -/
theorem c1_fetch_httpError_fatal (pages : Nat → PageResp) (p fuel : Nat)
    (hbefore : ∀ q, q < p → ∃ kvs, pages q = .dict kvs ∧ kvs ≠ [])
    (hp : pages p = .httpErr) (hfuel : p < fuel) :
    fetchWishlist pages fuel = .error .httpError := by
  refine fetchAux_httpError pages p 0 [] fuel ?_ ?_ hfuel
  · intro q hq
    simpa using hbefore q hq
  · simpa using hp

theorem c1_fetch_httpError_fatal_witness :
    (∀ q, q < 1 → ∃ kvs, pagesAfterFirstFails q = .dict kvs ∧ kvs ≠ []) ∧
    pagesAfterFirstFails 1 = .httpErr ∧ 1 < 10 ∧
    fetchWishlist pagesAfterFirstFails 10 = .error .httpError :=
  have hb : ∀ q, q < 1 →
      ∃ kvs, pagesAfterFirstFails q = .dict kvs ∧ kvs ≠ [] := by
    intro q hq
    interval_cases q
    exact ⟨[("1", [("name", .vStr "A")])], rfl, by decide⟩
  ⟨hb, rfl, by decide,
   c1_fetch_httpError_fatal pagesAfterFirstFails 1 10 hb rfl (by decide)⟩

/-- C1 (counterexample to the claim as stated): with page 0 delivering one
entry and page 1 failing with an HTTP error, the fetch does NOT stop and
return the page-0 wishlist — it propagates the error fatally. -/
theorem c1_failure_after_first_page_not_stop :
    fetchWishlist pagesAfterFirstFails 10 = .error .httpError ∧
    fetchWishlist pagesAfterFirstFails 10 ≠
      .ok [("1", [("name", .vStr "A")])] := by
  decide

/-!
## The argument resolver's numeric validation
-/

/-- C2 (code-bug evidence): `integer` rejects non-integer input and input
above the maximum, but accepts any negative integer: `--discount -5`,
`--deck -1` and `--price -100` all resolve successfully instead of exiting
with an error, contradicting the documented ranges (0–100, 0–3, ≥ 0). -/
theorem c2_integer_accepts_negative_values :
    integer (some "-5") "Discount" (some 100) = .ok (-5) ∧
    integer (some "-1") "Steam Deck rating" (some 3) = .ok (-1) ∧
    integer (some "-100") "Price" none = .ok (-100) ∧
    integer (some "101") "Discount" (some 100) =
      .error "Discount must be an integer between 0 and 100, inclusive.\n" ∧
    integer (some "abc") "Discount" (some 100) =
      .error "Discount must be an integer between 0 and 100, inclusive.\n" := by
  decide

/-!
## The price-enrichment guard
-/

/-- C9: with `--prices` and `--load` both configured (and no `--refresh`),
the guard deciding whether to re-fetch prices indexes the first entry of
the loaded wishlist; on an empty loaded wishlist it raises `IndexError`
instead of proceeding. -/
theorem c9_price_guard_empty_indexError (cfg : Config)
    (hcc : strOptTruthy cfg.cc = true) (hload : strOptTruthy cfg.load = true)
    (_hrefresh : cfg.refresh = false) :
    priceGuard cfg [] = .error .indexError := by
  simp [priceGuard, hcc, hload]

theorem c9_price_guard_empty_indexError_witness :
    strOptTruthy ({ cc := some "us", load := some "wl.json" } : Config).cc =
        true ∧
    strOptTruthy ({ cc := some "us", load := some "wl.json" } : Config).load =
        true ∧
    ({ cc := some "us", load := some "wl.json" } : Config).refresh = false ∧
    priceGuard { cc := some "us", load := some "wl.json" } [] =
      .error .indexError :=
  ⟨rfl, rfl, rfl,
   c9_price_guard_empty_indexError { cc := some "us", load := some "wl.json" }
     rfl rfl rfl⟩

/-!
## Properties of the CSV sort key
-/

/-- In numeric mode the key function succeeds exactly on int-convertible
sort values. -/
theorem sorter_num_ok (cfg : Config) (hnum : cfg.num = true)
    (item : String × Entry) :
    (∃ k, sorter cfg item = .ok k) ↔
      intConvertible (sortRaw cfg item.1 item.2) = true := by
  simp only [sorter, hnum, Bool.true_or, if_true, intConvertible]
  cases h : pyIntValue (sortRaw cfg item.1 item.2) with
  | ok n => simp [h, Except.map]
  | error e => simp [h, Except.map]

/-- In numeric mode the whole key pass succeeds exactly when every entry's
sort value is int-convertible. -/
theorem sortKeys_ok_iff (cfg : Config) (hnum : cfg.num = true) :
    ∀ (w : Wishlist),
      (∃ ks, sortKeys cfg w = .ok ks) ↔
        ∀ item ∈ w, intConvertible (sortRaw cfg item.1 item.2) = true := by
  intro w
  induction w with
  | nil => simp [sortKeys]
  | cons item rest ih =>
    constructor
    · rintro ⟨ks, hks⟩
      simp only [sortKeys] at hks
      cases h1 : sorter cfg item with
      | error e => rw [h1] at hks; simp [Bind.bind, Except.bind] at hks
      | ok k =>
        rw [h1] at hks
        cases h2 : sortKeys cfg rest with
        | error e => rw [h2] at hks; simp [Bind.bind, Except.bind] at hks
        | ok tl =>
          intro it hit
          rcases List.mem_cons.mp hit with rfl | hmem
          · exact (sorter_num_ok cfg hnum it).mp ⟨k, h1⟩
          · exact (ih.mp ⟨tl, h2⟩) it hmem
    · intro hall
      obtain ⟨k, hk⟩ := (sorter_num_ok cfg hnum item).mpr (hall item (by simp))
      obtain ⟨tl, htl⟩ := ih.mpr (fun it hit => hall it (by simp [hit]))
      exact ⟨k :: tl,
        by simp [sortKeys, hk, htl, Bind.bind, Except.bind, pure, Except.pure]⟩

/-- C10 (amended): in numeric mode the sort key function applies Python
integer conversion to every selected sort value, so the key pass succeeds
iff every surviving entry's sort value is int-convertible (an integer, a
boolean, or a string holding an optionally signed decimal literal); any
entry whose sort value is not convertible makes the run fail instead of
falling back to string comparison. -/
theorem c10_sorter_num_conversion (cfg : Config) (w : Wishlist)
    (hnum : cfg.num = true) :
    ((∃ ks, sortKeys cfg w = .ok ks) ↔
      ∀ item ∈ w, intConvertible (sortRaw cfg item.1 item.2) = true) ∧
    ((∃ item ∈ w, intConvertible (sortRaw cfg item.1 item.2) = false) →
      ∃ err, sortKeys cfg w = .error err) := by
  have hiff := sortKeys_ok_iff cfg hnum w
  refine ⟨hiff, ?_⟩
  rintro ⟨item, hitem, hbad⟩
  cases h : sortKeys cfg w with
  | ok ks =>
    have hconv := hiff.mp ⟨ks, h⟩ item hitem
    rw [hconv] at hbad
    cases hbad
  | error err => exact ⟨err, rfl⟩

theorem c10_sorter_num_conversion_witness :
    ({ csv := true, num := true } : Config).num = true ∧
    (((∃ ks, sortKeys { csv := true, num := true }
          [("10", [("added", .vStr "abc")])] = .ok ks) ↔
        ∀ item ∈ ([("10", [("added", .vStr "abc")])] : Wishlist),
          intConvertible
            (sortRaw { csv := true, num := true } item.1 item.2) = true) ∧
      ((∃ item ∈ ([("10", [("added", .vStr "abc")])] : Wishlist),
          intConvertible
            (sortRaw { csv := true, num := true } item.1 item.2) = false) →
        ∃ err, sortKeys { csv := true, num := true }
          [("10", [("added", .vStr "abc")])] = .error err)) :=
  ⟨rfl,
   c10_sorter_num_conversion { csv := true, num := true }
     [("10", [("added", .vStr "abc")])] rfl⟩

/-- C10 (counterexample to the claim as stated): with `--num`, an entry
whose sort value is the string `"-5"` — neither a Python integer nor a pure
digit string — still sorts successfully, because `int("-5")` succeeds; so
"succeeds only when every sort value is an integer or a pure digit string"
is too strong. -/
theorem c10_num_sort_succeeds_on_signed_string :
    sortKeys { csv := true, num := true } [("10", [("added", .vStr "-5")])] =
      .ok [.int (-5)] ∧
    sortRaw { csv := true, num := true } "10" [("added", .vStr "-5")] =
      .vStr "-5" ∧
    isIntOrDigitStr (.vStr "-5") = false := by
  decide

/-!
## Properties of the JSON field projection
-/

theorem getField_upsert_self (l : Entry) (k : String) (v : Value) :
    getField (upsert l k v) k = some v := by
  induction l with
  | nil => simp [upsert, getField]
  | cons kv rest ih =>
    obtain ⟨k', v'⟩ := kv
    by_cases h : k' = k
    · simp [upsert, h, getField]
    · simp [upsert, h, getField, ih]

theorem getField_upsert_ne (l : Entry) (k k' : String) (v : Value)
    (h : k ≠ k') : getField (upsert l k v) k' = getField l k' := by
  induction l with
  | nil => simp [upsert, getField, h]
  | cons kv rest ih =>
    obtain ⟨ka, va⟩ := kv
    by_cases hk : ka = k
    · simp [upsert, hk, getField, h]
    · simp [upsert, hk, getField, ih]

theorem upsert_not_mem {α : Type} (l : List (String × α)) (k : String)
    (v : α) (h : k ∉ l.map Prod.fst) : upsert l k v = l ++ [(k, v)] := by
  induction l with
  | nil => rfl
  | cons kv rest ih =>
    obtain ⟨ka, va⟩ := kv
    simp only [List.map_cons, List.mem_cons] at h
    push_neg at h
    simp only [upsert, if_neg (Ne.symm h.1)]
    rw [ih h.2]
    simp

/-- On an entry with pairwise-distinct keys, filling a fresh dict by
key-conditional assignment is a plain filter. -/
theorem projBase_eq_filter (wanted : Option (List String)) (e : Entry)
    (hnd : (e.map Prod.fst).Nodup) :
    projBase wanted e = e.filter (fun kv => keepField wanted kv.1) := by
  have aux : ∀ (e : Entry) (acc : Entry),
      (∀ p ∈ acc, p.1 ∉ e.map Prod.fst) → (e.map Prod.fst).Nodup →
      e.foldl (fun acc kv =>
          if keepField wanted kv.1 then upsert acc kv.1 kv.2 else acc) acc =
        acc ++ e.filter (fun kv => keepField wanted kv.1) := by
    intro e
    induction e with
    | nil => intro acc _ _; simp
    | cons kv rest ih =>
      intro acc hacc hnd
      obtain ⟨k, v⟩ := kv
      simp only [List.map_cons, List.nodup_cons] at hnd
      simp only [List.foldl_cons]
      by_cases hkeep : keepField wanted k = true
      · have hknotin : k ∉ acc.map Prod.fst := by
          intro hmem
          obtain ⟨p, hp, hpk⟩ := List.mem_map.mp hmem
          exact hacc p hp (by simp [hpk])
        simp only [hkeep, if_true]
        rw [upsert_not_mem acc k v hknotin]
        rw [ih (acc ++ [(k, v)]) ?_ hnd.2]
        · simp [List.filter_cons, hkeep]
        · intro p hp
          rcases List.mem_append.mp hp with hpa | hpk
          · exact fun hmem =>
              hacc p hpa (by simp only [List.map_cons, List.mem_cons]; right; exact hmem)
          · have : p = (k, v) := by simpa using hpk
            subst this
            exact hnd.1
      · simp only [Bool.not_eq_true] at hkeep
        simp only [hkeep, Bool.false_eq_true, if_false]
        rw [ih acc ?_ hnd.2]
        · simp [List.filter_cons, hkeep]
        · intro p hp hmem
          exact hacc p hp (by simp only [List.map_cons, List.mem_cons]; right; exact hmem)
  simpa [projBase] using aux e [] (by simp) hnd

/-- Looking a key up in a key-filtered entry. -/
theorem getField_filter_key (f : String → Bool) (e : Entry) (k : String) :
    getField (e.filter (fun kv => f kv.1)) k =
      if f k then getField e k else none := by
  induction e with
  | nil => simp [getField]
  | cons kv rest ih =>
    obtain ⟨k', v⟩ := kv
    by_cases hf : f k' = true
    · by_cases hk : k' = k
      · subst hk
        simp [List.filter_cons, hf, getField]
      · simp [List.filter_cons, hf, getField, hk, ih]
    · simp only [Bool.not_eq_true] at hf
      by_cases hk : k' = k
      · subst hk
        simp [List.filter_cons, hf, getField, ih]
      · simp [List.filter_cons, hf, getField, hk, ih]

/-- C7: in JSON output mode, a projected entry retains exactly the
requested fields (all fields when none are requested), and when `link` is
among the requested fields the computed store URL is present even if the
entry has no native `link` field; in particular `--fields name,link` on
`{"30": {"name": "Foo"}}` yields
`{"30": {"name": "Foo", "link": "https://store.steampowered.com/app/30"}}`. -/
theorem c7_json_projection :
    jsonOutput (wantedFields { fields := some "name,link" })
        [("30", [("name", .vStr "Foo")])] =
      [("30", [("name", .vStr "Foo"),
        ("link", .vStr "https://store.steampowered.com/app/30")])] ∧
    (∀ (ws : List String) (g : String) (e : Entry),
        (e.map Prod.fst).Nodup →
        (ws.contains "link" = true →
          getField (projectEntry (some ws) g e) "link" =
            some (.vStr (storeLink g))) ∧
        (∀ k, ws.contains k = false →
          getField (projectEntry (some ws) g e) k = none) ∧
        (∀ k, ws.contains k = true → k ≠ "link" →
          getField (projectEntry (some ws) g e) k = getField e k)) ∧
    (∀ (g : String) (e : Entry), (e.map Prod.fst).Nodup →
        projectEntry none g e = e) := by
  refine ⟨by decide, ?_, ?_⟩
  · intro ws g e hnd
    have hbase := projBase_eq_filter (some ws) e hnd
    refine ⟨?_, ?_, ?_⟩
    · intro hlink
      simp only [projectEntry, hlink, if_true]
      exact getField_upsert_self _ _ _
    · intro k hk
      by_cases hl : ws.contains "link" = true
      · have hkl : "link" ≠ k := by
          intro heq
          rw [heq] at hl
          rw [hl] at hk
          cases hk
        simp only [projectEntry, hl, if_true]
        rw [getField_upsert_ne _ _ _ _ hkl, hbase, getField_filter_key]
        simp only [keepField, hk]
        simp
      · simp only [Bool.not_eq_true] at hl
        simp only [projectEntry, hl, Bool.false_eq_true, if_false]
        rw [hbase, getField_filter_key]
        simp only [keepField, hk]
        simp
    · intro k hk hkl
      by_cases hl : ws.contains "link" = true
      · simp only [projectEntry, hl, if_true]
        rw [getField_upsert_ne _ _ _ _ (Ne.symm hkl), hbase,
          getField_filter_key]
        simp only [keepField, hk]
        simp
      · simp only [Bool.not_eq_true] at hl
        simp only [projectEntry, hl, Bool.false_eq_true, if_false]
        rw [hbase, getField_filter_key]
        simp only [keepField, hk]
        simp
  · intro g e hnd
    have hbase := projBase_eq_filter none e hnd
    simp only [projectEntry, hbase]
    simp [keepField]

theorem c7_json_projection_witness :
    (([("name", .vStr "Foo")] : Entry).map Prod.fst).Nodup ∧
    (["name", "link"].contains "link" = true) ∧
    getField (projectEntry (some ["name", "link"]) "30"
        [("name", .vStr "Foo")]) "link" =
      some (.vStr (storeLink "30")) :=
  ⟨by decide, by decide,
   (c7_json_projection.2.1 ["name", "link"] "30" [("name", .vStr "Foo")]
     (by decide)).1 (by decide)⟩

/-!
## Snapshot save and load (`json.dump` / `json.load`)

The snapshot file is the JSON serialisation of the wishlist, with
`json.dump`'s default separators (`", "` and `": "`). The printer escapes
quotes, backslashes and control characters; `json.load` is a recursive
descent parser given fuel (one unit per grammar step, so any fuel beyond
twice the value's size is enough), building each object with
last-duplicate-wins dict semantics like Python.
-/

/-- The hexadecimal digit character for `n < 16`. -/
def hexDigitChar (n : Nat) : Char :=
  if n < 10 then Char.ofNat (48 + n) else Char.ofNat (87 + n)

/-- The value of a hexadecimal digit character. -/
def hexVal (c : Char) : Option Nat :=
  if 48 ≤ c.toNat ∧ c.toNat ≤ 57 then some (c.toNat - 48)
  else if 97 ≤ c.toNat ∧ c.toNat ≤ 102 then some (c.toNat - 87)
  else if 65 ≤ c.toNat ∧ c.toNat ≤ 70 then some (c.toNat - 55)
  else none

/-- JSON string escaping of one character: quote and backslash get a
backslash escape, control characters a `\u00XX` escape, everything else is
literal. -/
def escapeChar (c : Char) : List Char :=
  if c = '"' then ['\\', '"']
  else if c = '\\' then ['\\', '\\']
  else if c.toNat < 32 then
    ['\\', 'u', '0', '0', hexDigitChar (c.toNat / 16), hexDigitChar (c.toNat % 16)]
  else [c]

/-- Escape a whole character sequence. -/
def escapeList : List Char → List Char
  | [] => []
  | c :: cs => escapeChar c ++ escapeList cs

/-- A printed JSON string: quote, escaped content, quote. -/
def printString (s : String) : List Char :=
  '"' :: (escapeList s.data ++ ['"'])

/-- Decimal digit characters of `n`, most significant first, by fuel (the
starting fuel `n + 1` always suffices). -/
def natToCharsAux : Nat → Nat → List Char → List Char
  | 0, _, acc => acc
  | fuel + 1, n, acc =>
      if n < 10 then Char.ofNat (48 + n % 10) :: acc
      else natToCharsAux fuel (n / 10) (Char.ofNat (48 + n % 10) :: acc)

/-- Decimal digit characters of `n`, most significant first. -/
def natToChars (n : Nat) : List Char :=
  natToCharsAux (n + 1) n []

/-- Proof-side specification of the decimal printing, by division. -/
def natDigitsSpec (n : Nat) : List Char :=
  if h : n < 10 then [Char.ofNat (48 + n)]
  else natDigitsSpec (n / 10) ++ [Char.ofNat (48 + n % 10)]
decreasing_by exact Nat.div_lt_self (by omega) (by omega)

/-- A printed JSON integer like Python prints it. -/
def printInt (n : Int) : List Char :=
  if n < 0 then '-' :: natToChars n.natAbs else natToChars n.toNat

mutual

/-- The JSON serialisation of a value, as `json.dump` writes it (item
separator `", "`, key separator `": "`, no indentation). -/
def printValue : Value → List Char
  | .vStr s => printString s
  | .vInt n => printInt n
  | .vBool b => if b then "true".data else "false".data
  | .vNull => "null".data
  | .vList l =>
      match l with
      | [] => "[]".data
      | v :: vs => '[' :: (printElems (v :: vs) ++ [']'])
  | .vObj m =>
      match m with
      | [] => "\x7b\x7d".data
      | p :: ps => '{' :: (printMembers (p :: ps) ++ ['}'])

/-- List elements, `", "`-separated. -/
def printElems : List Value → List Char
  | [] => []
  | [v] => printValue v
  | v :: vs => printValue v ++ (',' :: ' ' :: printElems vs)

/-- Object members, `", "`-separated, each `key": "value`. -/
def printMembers : List (String × Value) → List Char
  | [] => []
  | [(k, v)] => printString k ++ (':' :: ' ' :: printValue v)
  | (k, v) :: ps =>
      printString k ++ (':' :: ' ' :: printValue v) ++
        (',' :: ' ' :: printMembers ps)

end

/-- The unescaped meaning of a single-character JSON escape. -/
def unescapeChar : Char → Option Char
  | '"' => some '"'
  | '\\' => some '\\'
  | '/' => some '/'
  | 'b' => some (Char.ofNat 8)
  | 'f' => some (Char.ofNat 12)
  | 'n' => some (Char.ofNat 10)
  | 'r' => some (Char.ofNat 13)
  | 't' => some (Char.ofNat 9)
  | _ => none

/-- Parse the body of a JSON string after the opening quote: the decoded
characters and the input after the closing quote. -/
def parseStringRest : List Char → Option (List Char × List Char)
  | [] => none
  | c :: cs =>
      if c = '"' then some ([], cs)
      else if c = '\\' then
        match cs with
        | [] => none
        | e :: cs2 =>
            if e = 'u' then
              match cs2 with
              | h1 :: h2 :: h3 :: h4 :: cs3 =>
                  match hexVal h1, hexVal h2, hexVal h3, hexVal h4 with
                  | some a, some b, some hc, some d =>
                      (parseStringRest cs3).map (fun p =>
                        (Char.ofNat (((a * 16 + b) * 16 + hc) * 16 + d) :: p.1,
                          p.2))
                  | _, _, _, _ => none
              | _ => none
            else
              match unescapeChar e with
              | some c2 =>
                  (parseStringRest cs2).map (fun p => (c2 :: p.1, p.2))
              | none => none
      else (parseStringRest cs).map (fun p => (c :: p.1, p.2))

/-- Consume digit characters, accumulating their decimal value; stop at the
first non-digit. -/
def parseNatAux : List Char → Nat → Nat × List Char
  | [], acc => (acc, [])
  | c :: cs, acc =>
      if c.isDigit then parseNatAux cs (acc * 10 + (c.toNat - 48))
      else (acc, c :: cs)

/-- Expect a literal character sequence and drop it. -/
def dropLit : List Char → List Char → Option (List Char)
  | [], cs => some cs
  | l :: ls, c :: cs => if c = l then dropLit ls cs else none
  | _ :: _, [] => none

/-- The recursive-descent parser's mode: a value, the remaining elements of
an array, or the remaining members of an object (with what has been
accumulated so far; objects accumulate by dict assignment, so a repeated
key overwrites in place). -/
inductive PMode where
  | val
  | elems (acc : List Value)
  | members (acc : List (String × Value))

/-- One fuel-metered parsing step: parse a value / the rest of an array /
the rest of an object from the input, returning the parsed value and the
remaining input. -/
def parseRun : Nat → PMode → List Char → Option (Value × List Char)
  | 0, _, _ => none
  | fuel + 1, .val, cs =>
      match cs with
      | [] => none
      | c :: rest =>
          if c = '"' then
            (parseStringRest rest).map (fun p => (.vStr (String.mk p.1), p.2))
          else if c = 't' then
            (dropLit "rue".data rest).map (fun r => (.vBool true, r))
          else if c = 'f' then
            (dropLit "alse".data rest).map (fun r => (.vBool false, r))
          else if c = 'n' then
            (dropLit "ull".data rest).map (fun r => (.vNull, r))
          else if c = '[' then
            match rest with
            | [] => none
            | r0 :: rs =>
                if r0 = ']' then some (.vList [], rs)
                else parseRun fuel (.elems []) (r0 :: rs)
          else if c = '{' then
            match rest with
            | [] => none
            | r0 :: rs =>
                if r0 = '}' then some (.vObj [], rs)
                else parseRun fuel (.members []) (r0 :: rs)
          else if c = '-' then
            match rest with
            | c2 :: _ =>
                if c2.isDigit then
                  let p := parseNatAux rest 0
                  some (.vInt (-(p.1 : Int)), p.2)
                else none
            | [] => none
          else if c.isDigit then
            let p := parseNatAux (c :: rest) 0
            some (.vInt ((p.1 : Int)), p.2)
          else none
  | fuel + 1, .elems acc, cs =>
      match parseRun fuel .val cs with
      | none => none
      | some (v, r) =>
          match r with
          | [] => none
          | r0 :: rs =>
              if r0 = ',' then
                match rs with
                | [] => none
                | r1 :: rs2 =>
                    if r1 = ' ' then parseRun fuel (.elems (acc ++ [v])) rs2
                    else none
              else if r0 = ']' then some (.vList (acc ++ [v]), rs)
              else none
  | fuel + 1, .members acc, cs =>
      match cs with
      | [] => none
      | c0 :: cs2 =>
          if c0 = '"' then
            match parseStringRest cs2 with
            | none => none
            | some (kchars, r) =>
                match r with
                | [] => none
                | r0 :: rs =>
                    if r0 = ':' then
                      match rs with
                      | [] => none
                      | r1 :: rs2 =>
                          if r1 = ' ' then
                            match parseRun fuel .val rs2 with
                            | none => none
                            | some (v, r3) =>
                                match r3 with
                                | [] => none
                                | s0 :: ss =>
                                    if s0 = ',' then
                                      match ss with
                                      | [] => none
                                      | s1 :: ss2 =>
                                          if s1 = ' ' then
                                            parseRun fuel
                                              (.members
                                                (upsert acc (String.mk kchars) v))
                                              ss2
                                          else none
                                    else if s0 = '}' then
                                      some
                                        (.vObj (upsert acc (String.mk kchars) v),
                                          ss)
                                    else none
                          else none
                    else none
          else none

/-- Pairwise-distinct strings. -/
def keysUniqV : List String → Bool
  | [] => true
  | k :: ks => !(ks.contains k) && keysUniqV ks

mutual

/-- Every object inside the value has pairwise distinct keys (true of any
value that comes from Python dicts). -/
def wfValue : Value → Bool
  | .vList l => wfList l
  | .vObj m => keysUniqV (m.map Prod.fst) && wfMembers m
  | _ => true

/-- `wfValue` on every element. -/
def wfList : List Value → Bool
  | [] => true
  | v :: vs => wfValue v && wfList vs

/-- `wfValue` on every member value. -/
def wfMembers : List (String × Value) → Bool
  | [] => true
  | (_, v) :: ms => wfValue v && wfMembers ms

end

mutual

/-- One plus the number of grammar nodes below a value: an upper bound on
the recursion the parser needs. -/
def vsize : Value → Nat
  | .vList l => 1 + vsizeList l
  | .vObj m => 1 + vsizeMembers m
  | _ => 1

/-- Summed sizes of list elements, one extra per element. -/
def vsizeList : List Value → Nat
  | [] => 0
  | v :: vs => 1 + vsize v + vsizeList vs

/-- Summed sizes of member values, one extra per member. -/
def vsizeMembers : List (String × Value) → Nat
  | [] => 0
  | (_, v) :: ms => 1 + vsize v + vsizeMembers ms

end

/-- The wishlist as the JSON value `json.dump` serialises: an object of
objects. -/
def encodeWishlist (w : Wishlist) : Value :=
  .vObj (w.map (fun ge => (ge.1, .vObj ge.2)))

/-- `json.dump(wishlist, file)`: the snapshot file's contents. -/
def saveSnapshot (w : Wishlist) : String :=
  String.mk (printValue (encodeWishlist w))

/-- `json.load(file)`: parse the whole file as one JSON value. -/
def loadSnapshot (s : String) : Option Value :=
  match parseRun (2 * s.length + 1) .val s.data with
  | some (v, []) => some v
  | _ => none

/-- Recover the wishlist structure from a loaded object-of-objects. -/
def decodeEntries : List (String × Value) → Option Wishlist
  | [] => some []
  | (g, .vObj e) :: rest => (decodeEntries rest).map (fun tl => (g, e) :: tl)
  | _ => none

/-- Recover the wishlist structure from a loaded JSON value. -/
def decodeWishlist : Value → Option Wishlist
  | .vObj m => decodeEntries m
  | _ => none

/-- Is the head of the remaining input a digit? (A printed value may be
followed only by a separator, a closing bracket, or nothing, so the digits
of a printed integer end where the integer does.) -/
def noDigitHead : List Char → Bool
  | [] => true
  | c :: _ => !c.isDigit

/-!
## Round trip of the snapshot serialisation
-/

theorem hexVal_hexDigitChar : ∀ m, m < 16 → hexVal (hexDigitChar m) = some m := by
  decide

theorem isDigit_ofNat_digit : ∀ d, d < 10 → (Char.ofNat (48 + d)).isDigit = true := by
  decide

theorem toNat_ofNat_digit : ∀ d, d < 10 → (Char.ofNat (48 + d)).toNat = 48 + d := by
  decide

theorem digit_ne_specials (c : Char) (h : c.isDigit = true) :
    c ≠ '"' ∧ c ≠ 't' ∧ c ≠ 'f' ∧ c ≠ 'n' ∧ c ≠ '[' ∧ c ≠ '{' ∧ c ≠ '-' ∧
      c ≠ ']' ∧ c ≠ '}' ∧ c ≠ ',' ∧ c ≠ ':' ∧ c ≠ ' ' ∧ c ≠ '\\' := by
  refine ⟨?_, ?_, ?_, ?_, ?_, ?_, ?_, ?_, ?_, ?_, ?_, ?_, ?_⟩ <;>
    (intro heq; subst heq; exact absurd h (by decide))

/-- Parsing back what was escaped recovers the original characters. -/
theorem parseStringRest_escape (cs : List Char) :
    ∀ rest, parseStringRest (escapeList cs ++ ('"' :: rest)) = some (cs, rest) := by
  induction cs with
  | nil =>
    intro rest
    rw [show escapeList [] ++ ('"' :: rest) = '"' :: rest from rfl]
    rw [parseStringRest.eq_def]
    simp
  | cons c cs ih =>
    intro rest
    simp only [escapeList, List.append_assoc]
    by_cases hq : c = '"'
    · subst hq
      rw [show escapeChar '"' ++ (escapeList cs ++ ('"' :: rest)) =
          '\\' :: '"' :: (escapeList cs ++ ('"' :: rest)) from rfl]
      rw [parseStringRest.eq_def]
      simp [unescapeChar, ih]
    · by_cases hb : c = '\\'
      · subst hb
        rw [show escapeChar '\\' ++ (escapeList cs ++ ('"' :: rest)) =
            '\\' :: '\\' :: (escapeList cs ++ ('"' :: rest)) from rfl]
        rw [parseStringRest.eq_def]
        simp [unescapeChar, ih]
      · by_cases hctl : c.toNat < 32
        · have h16a : c.toNat / 16 < 16 := by omega
          have h16b : c.toNat % 16 < 16 := by omega
          have hva := hexVal_hexDigitChar _ h16a
          have hvb := hexVal_hexDigitChar _ h16b
          have hesc : escapeChar c = ['\\', 'u', '0', '0',
              hexDigitChar (c.toNat / 16), hexDigitChar (c.toNat % 16)] := by
            simp [escapeChar, hq, hb, hctl]
          rw [hesc]
          rw [show ['\\', 'u', '0', '0', hexDigitChar (c.toNat / 16),
              hexDigitChar (c.toNat % 16)] ++ (escapeList cs ++ ('"' :: rest)) =
              '\\' :: 'u' :: '0' :: '0' :: hexDigitChar (c.toNat / 16) ::
                hexDigitChar (c.toNat % 16) :: (escapeList cs ++ ('"' :: rest))
              from rfl]
          rw [parseStringRest.eq_def]
          have hv0 : hexVal '0' = some 0 := by decide
          have harith : c.toNat / 16 * 16 + c.toNat % 16 = c.toNat := by omega
          simp [hva, hvb, hv0, ih, harith, Char.ofNat_toNat]
        · have hesc : escapeChar c = [c] := by
            simp [escapeChar, hq, hb, hctl]
          rw [hesc]
          rw [show [c] ++ (escapeList cs ++ ('"' :: rest)) =
              c :: (escapeList cs ++ ('"' :: rest)) from rfl]
          rw [parseStringRest.eq_def]
          simp [hq, hb, ih]

theorem natDigitsSpec_ne_nil (n : Nat) : natDigitsSpec n ≠ [] := by
  rw [natDigitsSpec]
  split <;> simp

theorem natDigitsSpec_all_digits (n : Nat) :
    (natDigitsSpec n).all Char.isDigit = true := by
  induction n using Nat.strong_induction_on with
  | _ n ih =>
    rw [natDigitsSpec]
    split
    · rename_i h10
      simp [isDigit_ofNat_digit n h10]
    · rename_i h10
      have hdiv : n / 10 < n := Nat.div_lt_self (by omega) (by omega)
      simp [List.all_append, ih _ hdiv,
        isDigit_ofNat_digit (n % 10) (by omega)]

theorem natDigitsSpec_head_digit (n : Nat) :
    ∃ c cs2, natDigitsSpec n = c :: cs2 ∧ c.isDigit = true := by
  cases hspec : natDigitsSpec n with
  | nil => exact absurd hspec (natDigitsSpec_ne_nil n)
  | cons c cs2 =>
    have hall := natDigitsSpec_all_digits n
    rw [hspec] at hall
    simp only [List.all_cons, Bool.and_eq_true] at hall
    exact ⟨c, cs2, rfl, hall.1⟩

theorem natToCharsAux_eq :
    ∀ (fuel n : Nat) (acc : List Char), 0 < fuel → n < 10 ^ fuel →
      natToCharsAux fuel n acc = natDigitsSpec n ++ acc := by
  intro fuel
  induction fuel with
  | zero => intro n acc h; omega
  | succ fuel ih =>
    intro n acc _ hbound
    by_cases h10 : n < 10
    · simp only [natToCharsAux, h10, if_true]
      rw [natDigitsSpec, dif_pos h10, Nat.mod_eq_of_lt h10]
      rfl
    · simp only [natToCharsAux, h10, if_false]
      have hpow : 10 ^ (fuel + 1) = 10 ^ fuel * 10 := pow_succ 10 fuel
      have hf : 0 < fuel := by
        by_contra h0
        have : fuel = 0 := by omega
        subst this
        simp at hpow
        omega
      rw [ih (n / 10) (Char.ofNat (48 + n % 10) :: acc) hf (by omega)]
      rw [show natDigitsSpec n =
          natDigitsSpec (n / 10) ++ [Char.ofNat (48 + n % 10)] from by
        rw [natDigitsSpec]; rw [dif_neg h10]]
      simp

theorem natToChars_eq_spec (n : Nat) : natToChars n = natDigitsSpec n := by
  have h1 : n < 10 ^ (n + 1) :=
    lt_trans (by omega) (Nat.lt_pow_self (by norm_num) (n + 1))
  have h := natToCharsAux_eq (n + 1) n [] (by omega) h1
  simpa [natToChars] using h

theorem parseNatAux_digits_append (ds : List Char)
    (h : ds.all Char.isDigit = true) :
    ∀ (rest : List Char) (acc : Nat),
      parseNatAux (ds ++ rest) acc =
        parseNatAux rest (ds.foldl (fun a c => a * 10 + (c.toNat - 48)) acc) := by
  induction ds with
  | nil => intro rest acc; simp
  | cons d ds ih =>
    simp only [List.all_cons, Bool.and_eq_true] at h
    intro rest acc
    simp only [List.cons_append, parseNatAux, h.1, if_true, List.append_eq]
    rw [ih h.2]
    simp

theorem parseNatAux_stop (rest : List Char) (acc : Nat)
    (h : noDigitHead rest = true) : parseNatAux rest acc = (acc, rest) := by
  cases rest with
  | nil => rfl
  | cons c cs =>
    simp only [noDigitHead, Bool.not_eq_true'] at h
    simp [parseNatAux, h]

theorem foldl_natDigitsSpec (n : Nat) :
    ∀ acc, (natDigitsSpec n).foldl (fun a c => a * 10 + (c.toNat - 48)) acc =
      acc * 10 ^ (natDigitsSpec n).length + n := by
  induction n using Nat.strong_induction_on with
  | _ n ih =>
    intro acc
    rw [natDigitsSpec]
    split
    · rename_i h10
      simp [toNat_ofNat_digit n h10]
    · rename_i h10
      have hdiv : n / 10 < n := Nat.div_lt_self (by omega) (by omega)
      rw [List.foldl_append, ih _ hdiv]
      simp only [List.foldl_cons, List.foldl_nil, List.length_append,
        List.length_cons, List.length_nil, toNat_ofNat_digit (n % 10) (by omega)]
      rw [pow_succ]
      ring_nf
      omega

theorem parseNat_spec (n : Nat) (rest : List Char)
    (h : noDigitHead rest = true) :
    parseNatAux (natDigitsSpec n ++ rest) 0 = (n, rest) := by
  rw [parseNatAux_digits_append _ (natDigitsSpec_all_digits n),
    parseNatAux_stop _ _ h, foldl_natDigitsSpec]
  simp

theorem dropLit_self (ls : List Char) : ∀ cs, dropLit ls (ls ++ cs) = some cs := by
  induction ls with
  | nil => intro cs; rfl
  | cons l ls ih => intro cs; simp [dropLit, ih]

theorem vsize_pos (v : Value) : 1 ≤ vsize v := by
  cases v <;> simp [vsize]

theorem vsize_le_of_mem : ∀ (l : List Value) (u : Value), u ∈ l →
    vsize u ≤ vsizeList l := by
  intro l
  induction l with
  | nil => intro u hu; cases hu
  | cons v vs ih =>
    intro u hu
    rcases List.mem_cons.mp hu with rfl | hmem
    · simp [vsizeList]; omega
    · have := ih u hmem
      simp [vsizeList]; omega

theorem vsize_le_of_mem_members : ∀ (m : List (String × Value))
    (p : String × Value), p ∈ m → vsize p.2 ≤ vsizeMembers m := by
  intro m
  induction m with
  | nil => intro p hp; cases hp
  | cons q ms ih =>
    intro p hp
    obtain ⟨qk, qv⟩ := q
    rcases List.mem_cons.mp hp with rfl | hmem
    · simp [vsizeMembers]; omega
    · have := ih p hmem
      simp [vsizeMembers]; omega

/-- The first character of a printed value is never a closing bracket. -/
theorem printValue_head (v : Value) :
    ∃ c cs2, printValue v = c :: cs2 ∧ c ≠ ']' ∧ c ≠ '}' := by
  cases v with
  | vStr s =>
    exact ⟨'"', escapeList s.data ++ ['"'], rfl, by decide, by decide⟩
  | vInt n =>
    by_cases hneg : n < 0
    · refine ⟨'-', natToChars n.natAbs, ?_, by decide, by decide⟩
      simp [printValue, printInt, hneg]
    · obtain ⟨c, cs2, hspec, hdig⟩ := natDigitsSpec_head_digit n.toNat
      have hden := digit_ne_specials c hdig
      refine ⟨c, cs2, ?_, hden.2.2.2.2.2.2.2.1, hden.2.2.2.2.2.2.2.2.1⟩
      rw [show printValue (.vInt n) = printInt n from rfl]
      rw [printInt, if_neg hneg, natToChars_eq_spec, hspec]
  | vBool b =>
    cases b
    · exact ⟨'f', "alse".data, rfl, by decide, by decide⟩
    · exact ⟨'t', "rue".data, rfl, by decide, by decide⟩
  | vNull => exact ⟨'n', "ull".data, rfl, by decide, by decide⟩
  | vList l =>
    cases l with
    | nil => exact ⟨'[', [']'], rfl, by decide, by decide⟩
    | cons v vs =>
      exact ⟨'[', printElems (v :: vs) ++ [']'], rfl, by decide, by decide⟩
  | vObj m =>
    cases m with
    | nil => exact ⟨'{', ['}'], rfl, by decide, by decide⟩
    | cons p ps =>
      exact ⟨'{', printMembers (p :: ps) ++ ['}'], rfl, by decide, by decide⟩

/-- Building a dict by repeated assignment from pairwise-distinct, fresh
keys is a plain append. -/
theorem foldl_upsert_uniq :
    ∀ (m acc : List (String × Value)),
      keysUniqV (m.map Prod.fst) = true →
      (∀ p ∈ m, p.1 ∉ acc.map Prod.fst) →
      List.foldl (fun a p => upsert a p.1 p.2) acc m = acc ++ m := by
  intro m
  induction m with
  | nil => intro acc _ _; simp
  | cons q ms ih =>
    intro acc huniq hdisj
    obtain ⟨k, v⟩ := q
    simp only [List.map_cons, keysUniqV, Bool.and_eq_true,
      Bool.not_eq_true'] at huniq
    simp only [List.foldl_cons]
    rw [show upsert acc k v = acc ++ [(k, v)] from
      upsert_not_mem acc k v (hdisj (k, v) (by simp))]
    rw [ih (acc ++ [(k, v)]) huniq.2 ?_]
    · simp
    · intro p hp
      simp only [List.map_append, List.map_cons, List.map_nil]
      intro hmem
      rcases List.mem_append.mp hmem with hina | hink
      · exact hdisj p (by simp [hp]) hina
      · have hpk : p.1 = k := by simpa using hink
        have hkmem : k ∈ ms.map Prod.fst := List.mem_map.mpr ⟨p, hp, hpk⟩
        have hfalse : (ms.map Prod.fst).contains k = true :=
          List.elem_iff.mpr hkmem
        rw [huniq.1] at hfalse
        cases hfalse

/-- The parser reads back exactly what the printer wrote, for any value
whose objects have distinct keys, any sufficient fuel, and any following
input that does not begin with a digit. -/
theorem parseRun_roundtrip :
    ∀ (N : Nat) (v : Value), vsize v ≤ N → ∀ (fuel : Nat) (rest : List Char),
      wfValue v = true → 2 * vsize v ≤ fuel → noDigitHead rest = true →
      parseRun fuel .val (printValue v ++ rest) = some (v, rest) := by
  intro N
  induction N with
  | zero =>
    intro v hv
    have := vsize_pos v
    omega
  | succ N ih =>
    have helems : ∀ (l : List Value), l ≠ [] → (∀ u ∈ l, vsize u ≤ N) →
        ∀ (fuel2 : Nat) (acc : List Value) (rest2 : List Char),
          wfList l = true → 2 * vsizeList l ≤ fuel2 + 1 →
          parseRun (fuel2 + 1) (.elems acc)
              (printElems l ++ (']' :: rest2)) =
            some (.vList (acc ++ l), rest2) := by
      intro l
      induction l with
      | nil => intro h; exact absurd rfl h
      | cons u us ihl =>
        intro _ hsz fuel2 acc rest2 hwfl hfuel2
        simp only [wfList, Bool.and_eq_true] at hwfl
        simp only [vsizeList] at hfuel2
        have hupos := vsize_pos u
        cases us with
        | nil =>
          have hval := ih u (hsz u (by simp)) fuel2 (']' :: rest2) hwfl.1
            (by simp [vsizeList] at hfuel2; omega) (by rfl)
          rw [show printElems [u] ++ (']' :: rest2) =
              printValue u ++ (']' :: rest2) from by simp [printElems]]
          rw [parseRun.eq_def]
          simp only []
          rw [hval]
          simp
        | cons u1 us1 =>
          have hval := ih u (hsz u (by simp)) fuel2
            (',' :: ' ' :: (printElems (u1 :: us1) ++ (']' :: rest2)))
            hwfl.1 (by omega) (by rfl)
          rw [show printElems (u :: u1 :: us1) ++ (']' :: rest2) =
              printValue u ++
                (',' :: ' ' ::
                  (printElems (u1 :: us1) ++ (']' :: rest2))) from by
            simp [printElems]]
          rw [parseRun.eq_def]
          simp only []
          rw [hval]
          have hnext : ∃ f3, fuel2 = f3 + 1 := by
            have := vsize_pos u1
            simp only [vsizeList] at hfuel2
            exact ⟨fuel2 - 1, by omega⟩
          obtain ⟨f3, rfl⟩ := hnext
          have hrec := ihl (by simp) (fun x hx => hsz x (by simp [hx]))
            f3 (acc ++ [u]) rest2 hwfl.2
            (by simp only [vsizeList] at hfuel2 ⊢; omega)
          simp only [reduceIte, List.append_assoc, List.cons_append,
            List.nil_append] at hrec ⊢
          rw [hrec]
    have hmembers : ∀ (m : List (String × Value)), m ≠ [] →
        (∀ p ∈ m, vsize p.2 ≤ N) →
        ∀ (fuel2 : Nat) (acc : List (String × Value)) (rest2 : List Char),
          wfMembers m = true → 2 * vsizeMembers m ≤ fuel2 + 1 →
          parseRun (fuel2 + 1) (.members acc)
              (printMembers m ++ ('}' :: rest2)) =
            some (.vObj (List.foldl (fun a p => upsert a p.1 p.2) acc m),
              rest2) := by
      intro m
      induction m with
      | nil => intro h; exact absurd rfl h
      | cons q ms ihm =>
        intro _ hsz fuel2 acc rest2 hwfm hfuel2
        obtain ⟨k, u⟩ := q
        simp only [wfMembers, Bool.and_eq_true] at hwfm
        simp only [vsizeMembers] at hfuel2
        have hupos := vsize_pos u
        cases ms with
        | nil =>
          have hval := ih u (hsz (k, u) (by simp)) fuel2 ('}' :: rest2)
            hwfm.1 (by simp [vsizeMembers] at hfuel2; omega) (by rfl)
          rw [show printMembers [(k, u)] ++ ('}' :: rest2) =
              '"' :: (escapeList k.data ++
                ('"' :: (':' :: ' ' :: (printValue u ++ ('}' :: rest2)))))
              from by simp [printMembers, printString]]
          rw [parseRun.eq_def]
          simp only []
          rw [parseStringRest_escape]
          simp only [reduceIte]
          rw [hval]
          simp [List.foldl]
        | cons q1 ms1 =>
          have hval := ih u (hsz (k, u) (by simp)) fuel2
            (',' :: ' ' :: (printMembers (q1 :: ms1) ++ ('}' :: rest2)))
            hwfm.1 (by omega) (by rfl)
          rw [show printMembers ((k, u) :: q1 :: ms1) ++ ('}' :: rest2) =
              '"' :: (escapeList k.data ++
                ('"' :: (':' :: ' ' :: (printValue u ++
                  (',' :: ' ' ::
                    (printMembers (q1 :: ms1) ++ ('}' :: rest2)))))))
              from by simp [printMembers, printString]]
          rw [parseRun.eq_def]
          simp only []
          rw [parseStringRest_escape]
          simp only [reduceIte]
          rw [hval]
          have hnext : ∃ f3, fuel2 = f3 + 1 := by
            obtain ⟨k1, u1⟩ := q1
            have := vsize_pos u1
            simp only [vsizeMembers] at hfuel2
            exact ⟨fuel2 - 1, by omega⟩
          obtain ⟨f3, rfl⟩ := hnext
          have hrec := ihm (by simp) (fun p hp => hsz p (by simp [hp]))
            f3 (upsert acc (String.mk k.data) u) rest2 hwfm.2
            (by simp only [vsizeMembers] at hfuel2 ⊢; omega)
          simp only [reduceIte] at hrec ⊢
          rw [hrec]
          simp [List.foldl]
    intro v hvN fuel rest hwf hfuel hrest
    have hvpos := vsize_pos v
    obtain ⟨f, rfl⟩ : ∃ f, fuel = f + 1 := ⟨fuel - 1, by omega⟩
    cases v with
    | vStr s =>
      rw [show printValue (.vStr s) ++ rest =
          '"' :: (escapeList s.data ++ ('"' :: rest)) from by
        simp [printValue, printString]]
      rw [parseRun.eq_def]
      simp only []
      rw [parseStringRest_escape]
      simp
    | vBool b =>
      cases b
      · rw [show printValue (.vBool false) ++ rest =
            'f' :: ("alse".data ++ rest) from rfl]
        rw [parseRun.eq_def]
        simp
        exact dropLit_self _ rest
      · rw [show printValue (.vBool true) ++ rest =
            't' :: ("rue".data ++ rest) from rfl]
        rw [parseRun.eq_def]
        simp
        exact dropLit_self _ rest
    | vNull =>
      rw [show printValue .vNull ++ rest = 'n' :: ("ull".data ++ rest) from rfl]
      rw [parseRun.eq_def]
      simp
      exact dropLit_self _ rest
    | vInt n =>
      by_cases hneg : n < 0
      · obtain ⟨c2, cs2, hspec, hdig⟩ := natDigitsSpec_head_digit n.natAbs
        have hps := parseNat_spec n.natAbs rest hrest
        rw [hspec] at hps
        simp only [List.cons_append] at hps
        rw [show printValue (.vInt n) ++ rest =
            '-' :: (c2 :: (cs2 ++ rest)) from by
          rw [show printValue (.vInt n) = printInt n from rfl]
          rw [printInt, if_pos hneg, natToChars_eq_spec, hspec]
          simp]
        rw [parseRun.eq_def]
        simp only [if_neg (show ¬('-' = '"') from by decide),
          if_neg (show ¬('-' = 't') from by decide),
          if_neg (show ¬('-' = 'f') from by decide),
          if_neg (show ¬('-' = 'n') from by decide),
          if_neg (show ¬('-' = '[') from by decide),
          if_neg (show ¬('-' = '{') from by decide),
          if_pos (show ('-' : Char) = '-' from rfl), hdig, if_true]
        rw [hps]
        have hval : -((n.natAbs : Int)) = n := by omega
        rw [hval]
      · obtain ⟨c2, cs2, hspec, hdig⟩ := natDigitsSpec_head_digit n.toNat
        have hne := digit_ne_specials c2 hdig
        have hps := parseNat_spec n.toNat rest hrest
        rw [hspec] at hps
        simp only [List.cons_append] at hps
        rw [show printValue (.vInt n) ++ rest = c2 :: (cs2 ++ rest) from by
          rw [show printValue (.vInt n) = printInt n from rfl]
          rw [printInt, if_neg hneg, natToChars_eq_spec, hspec]
          simp]
        rw [parseRun.eq_def]
        simp only [if_neg hne.1, if_neg hne.2.1, if_neg hne.2.2.1,
          if_neg hne.2.2.2.1, if_neg hne.2.2.2.2.1, if_neg hne.2.2.2.2.2.1,
          if_neg hne.2.2.2.2.2.2.1, hdig, if_true]
        rw [hps]
        have hval : ((n.toNat : Int)) = n := by omega
        rw [hval]
    | vList l =>
      cases l with
      | nil =>
        rw [show printValue (.vList []) ++ rest = '[' :: (']' :: rest) from rfl]
        rw [parseRun.eq_def]
        simp
      | cons v0 vs =>
        simp only [vsize, vsizeList] at hvN hfuel
        obtain ⟨c0, cs0, hhead, hne1, hne2⟩ := printValue_head v0
        have hpe : ∃ t0, printElems (v0 :: vs) = c0 :: t0 := by
          cases vs with
          | nil => exact ⟨cs0, by simp [printElems, hhead]⟩
          | cons v1 vs1 =>
            exact ⟨cs0 ++ (',' :: ' ' :: printElems (v1 :: vs1)),
              by simp [printElems, hhead]⟩
        obtain ⟨t0, hpet⟩ := hpe
        have hfpos : ∃ f2, f = f2 + 1 := by
          have := vsize_pos v0
          exact ⟨f - 1, by omega⟩
        obtain ⟨f2, rfl⟩ := hfpos
        have hrec := helems (v0 :: vs) (by simp)
          (fun uu huu => by
            have := vsize_le_of_mem (v0 :: vs) uu huu
            simp only [vsizeList] at this
            omega)
          f2 [] rest (by simpa [wfValue] using hwf)
          (by simp only [vsizeList]; omega)
        rw [show printValue (.vList (v0 :: vs)) ++ rest =
            '[' :: (printElems (v0 :: vs) ++ (']' :: rest)) from by
          simp [printValue]]
        rw [parseRun.eq_def]
        rw [hpet]
        simp only [List.cons_append, reduceIte, if_neg hne1]
        rw [← List.cons_append, ← hpet, hrec]
        simp
    | vObj m =>
      cases m with
      | nil =>
        rw [show printValue (.vObj []) ++ rest = '{' :: ('}' :: rest) from rfl]
        rw [parseRun.eq_def]
        simp
      | cons p0 ps =>
        obtain ⟨k0, u0⟩ := p0
        simp only [vsize, vsizeMembers] at hvN hfuel
        have hfpos : ∃ f2, f = f2 + 1 := by
          have := vsize_pos u0
          exact ⟨f - 1, by omega⟩
        obtain ⟨f2, rfl⟩ := hfpos
        simp only [wfValue, Bool.and_eq_true] at hwf
        have hrec := hmembers ((k0, u0) :: ps) (by simp)
          (fun pp hpp => by
            have := vsize_le_of_mem_members ((k0, u0) :: ps) pp hpp
            simp only [vsizeMembers] at this
            omega)
          f2 [] rest hwf.2
          (by simp only [vsizeMembers]; omega)
        have hpm : ∃ t0, printMembers ((k0, u0) :: ps) = '"' :: t0 := by
          cases ps with
          | nil =>
            exact ⟨escapeList k0.data ++ ['"'] ++ (':' :: ' ' :: printValue u0),
              by simp [printMembers, printString]⟩
          | cons q1 ms1 =>
            exact ⟨escapeList k0.data ++ ['"'] ++
              ((':' :: ' ' :: printValue u0) ++
                (',' :: ' ' :: printMembers (q1 :: ms1))),
              by simp [printMembers, printString]⟩
        obtain ⟨t0, hpmt⟩ := hpm
        rw [show printValue (.vObj ((k0, u0) :: ps)) ++ rest =
            '{' :: (printMembers ((k0, u0) :: ps) ++ ('}' :: rest)) from by
          simp [printValue]]
        rw [parseRun.eq_def]
        rw [hpmt]
        simp only [List.cons_append, reduceIte,
          if_neg (show ¬('"' = '}') from by decide)]
        rw [← List.cons_append, ← hpmt, hrec]
        rw [foldl_upsert_uniq ((k0, u0) :: ps) [] hwf.1 (by simp)]
        simp

/-- A printed value is at least as long as the value's size, so fuel
derived from the file length always suffices. -/
theorem vsize_le_print : ∀ v : Value, vsize v ≤ (printValue v).length := by
  have hlist : ∀ (l : List Value), (∀ u ∈ l, vsize u ≤ (printValue u).length) →
      vsizeList l ≤ (printElems l).length + 1 := by
    intro l
    induction l with
    | nil => intro _; simp [vsizeList, printElems]
    | cons u us ih =>
      intro hmem
      have hu := hmem u (by simp)
      cases us with
      | nil =>
        simp only [vsizeList, printElems, List.length_nil]
        omega
      | cons u1 us1 =>
        have hrest := ih (fun x hx => hmem x (by simp [hx]))
        simp only [vsizeList] at hrest ⊢
        simp only [printElems, List.length_append, List.length_cons]
        omega
  have hmem : ∀ (m : List (String × Value)),
      (∀ p ∈ m, vsize p.2 ≤ (printValue p.2).length) →
      vsizeMembers m ≤ (printMembers m).length + 1 := by
    intro m
    induction m with
    | nil => intro _; simp [vsizeMembers, printMembers]
    | cons q ms ih =>
      intro hmem2
      obtain ⟨k, u⟩ := q
      have hu : vsize u ≤ (printValue u).length := hmem2 (k, u) (by simp)
      cases ms with
      | nil =>
        simp only [vsizeMembers, printMembers, List.length_append,
          List.length_cons]
        omega
      | cons q1 ms1 =>
        have hrest := ih (fun x hx => hmem2 x (by simp [hx]))
        simp only [vsizeMembers] at hrest ⊢
        simp only [printMembers, List.length_append, List.length_cons]
        omega
  intro v
  induction v using Value.ind with
  | hstr s => simp [vsize, printValue, printString]
  | hint n =>
    have hne := natDigitsSpec_ne_nil n.natAbs
    have hne2 := natDigitsSpec_ne_nil n.toNat
    simp only [vsize, printValue, printInt]
    by_cases hneg : n < 0
    · simp only [hneg, if_true, natToChars_eq_spec, List.length_cons]
      omega
    · simp only [hneg, if_false, natToChars_eq_spec]
      cases hs : natDigitsSpec n.toNat with
      | nil => exact absurd hs hne2
      | cons a as => simp
  | hbool b => cases b <;> simp [vsize, printValue]
  | hnull => simp [vsize, printValue]
  | hlist l ihl =>
    cases l with
    | nil => simp [vsize, vsizeList, printValue]
    | cons u us =>
      have h := hlist (u :: us) ihl
      simp only [vsize] at h ⊢
      simp only [printValue, List.length_cons, List.length_append]
      omega
  | hobj m ihm =>
    cases m with
    | nil => simp [vsize, vsizeMembers, printValue]
    | cons q qs =>
      have h := hmem (q :: qs) ihm
      simp only [vsize] at h ⊢
      simp only [printValue, List.length_cons, List.length_append]
      omega

theorem decodeEntries_encode : ∀ (w : Wishlist),
    decodeEntries (w.map (fun ge => (ge.1, .vObj ge.2))) = some w := by
  intro w
  induction w with
  | nil => rfl
  | cons ge rest ih =>
    obtain ⟨g, e⟩ := ge
    simp [decodeEntries, ih]

/-- C5: saving a wishlist with `--save` (`json.dump`) and loading the same
file with `--load` (`json.load`) yields the identical wishlist value: the
parse of the printed snapshot returns exactly the saved object-of-objects,
and decoding it recovers the original wishlist mapping. The hypothesis is
that every object has pairwise-distinct keys, which holds for any wishlist
that exists as a Python dict. -/
theorem c5_save_load_roundtrip (w : Wishlist)
    (hwf : wfValue (encodeWishlist w) = true) :
    loadSnapshot (saveSnapshot w) = some (encodeWishlist w) ∧
    (loadSnapshot (saveSnapshot w)).bind decodeWishlist = some w := by
  have hfuel : 2 * vsize (encodeWishlist w) ≤
      2 * (saveSnapshot w).length + 1 := by
    have h1 := vsize_le_print (encodeWishlist w)
    have h2 : (saveSnapshot w).length =
        (printValue (encodeWishlist w)).length := rfl
    omega
  have hmain := parseRun_roundtrip (vsize (encodeWishlist w))
    (encodeWishlist w) le_rfl (2 * (saveSnapshot w).length + 1) []
    hwf hfuel rfl
  rw [List.append_nil] at hmain
  have hload : loadSnapshot (saveSnapshot w) = some (encodeWishlist w) := by
    unfold loadSnapshot
    rw [show (saveSnapshot w).data = printValue (encodeWishlist w) from rfl]
    rw [hmain]
  refine ⟨hload, ?_⟩
  rw [hload]
  show decodeWishlist (encodeWishlist w) = some w
  rw [show decodeWishlist (encodeWishlist w) =
      decodeEntries (w.map (fun ge => (ge.1, .vObj ge.2))) from rfl]
  exact decodeEntries_encode w

theorem c5_save_load_roundtrip_witness :
    wfValue (encodeWishlist
        [("10", [("name", .vStr "Foo")]),
         ("20", [("tags", .vList [.vStr "RPG"]), ("final", .vInt 999)])]) =
      true ∧
    (loadSnapshot (saveSnapshot
        [("10", [("name", .vStr "Foo")]),
         ("20", [("tags", .vList [.vStr "RPG"]), ("final", .vInt 999)])]) =
      some (encodeWishlist
        [("10", [("name", .vStr "Foo")]),
         ("20", [("tags", .vList [.vStr "RPG"]), ("final", .vInt 999)])]) ∧
    (loadSnapshot (saveSnapshot
        [("10", [("name", .vStr "Foo")]),
         ("20", [("tags", .vList [.vStr "RPG"]), ("final", .vInt 999)])])).bind
        decodeWishlist =
      some [("10", [("name", .vStr "Foo")]),
         ("20", [("tags", .vList [.vStr "RPG"]), ("final", .vInt 999)])]) :=
  ⟨by decide,
   c5_save_load_roundtrip
     [("10", [("name", .vStr "Foo")]),
      ("20", [("tags", .vList [.vStr "RPG"]), ("final", .vInt 999)])]
     (by decide)⟩

end SteamWishlist
